import Mathlib

/-!
# Verification of the fixed-size thread pool (src/src/lib.rs)

A shallow embedding of the Rust thread-pool library: the message type, the
mpsc channel as seen from the sending side, workers with their optional join
handles, construction (`ThreadPool.new`), submission (`ThreadPool.execute`),
teardown (`ThreadPool.drop`), the worker loop run over the stream of
messages it dequeues (`workerRun`), and an interleaving small-step semantics
of the whole pool (`Step`) used to prove the exactly-once execution
guarantee.  Panics (`unwrap` on `Err`, the `assert!` in `new`) are modelled
as `Except.error` / `Option.none` outcomes.
-/

namespace ThreadPoolSpec

/-- Jobs are opaque closures; we identify each one by a numeric id and model
"running the job" as recording that id. -/
abbrev JobId := Nat

/-- The message type sent through the shared channel (lib.rs lines 15-18):
either a boxed job or the terminate signal. -/
inductive Message where
  | NewJob : JobId → Message
  | Terminate : Message
deriving DecidableEq, Repr

/-- The handle returned by thread::spawn.  `join` returns `Err` exactly when
the spawned thread ended by panicking, which is the only way join fails. -/
structure JoinHandle where
  panicked : Bool
deriving DecidableEq, Repr

/-- JoinHandle::join, as its result is observed by the caller. -/
def JoinHandle.join (h : JoinHandle) : Except Unit Unit :=
  if h.panicked then Except.error () else Except.ok ()

/-- One worker (lib.rs lines 75-80): a numeric id plus an optional slot
holding the join handle of its background thread. -/
structure Worker where
  id : Nat
  thread : Option JoinHandle
deriving DecidableEq, Repr

/-- Worker::new (lib.rs lines 82-103): spawns the background thread — a
fresh handle whose thread has not panicked — and stores it in the slot. -/
def Worker.new (id : Nat) : Worker :=
  { id := id, thread := some { panicked := false } }

/-- The mpsc channel as observed from the sending side: its FIFO contents
plus whether any receiving end is still alive. -/
structure Channel where
  queue : List Message
  receiverAlive : Bool
deriving DecidableEq, Repr

/-- Sender::send: fails exactly when no receiving end is alive, and
otherwise appends the message to the back of the queue. -/
def Channel.send (c : Channel) (m : Message) : Except Unit Channel :=
  if c.receiverAlive then Except.ok { c with queue := c.queue ++ [m] }
  else Except.error ()

/-- ThreadPool (lib.rs lines 6-9): the workers and the sending end. -/
structure ThreadPool where
  workers : List Worker
  sender : Channel
deriving DecidableEq, Repr

/-- ThreadPool::new (lib.rs lines 21-40): `assert!(size > 0)` — the failing
assertion is modelled as `none`, and it fires before anything is created —
then the channel is created and exactly `size` workers are spawned with ids
`0, 1, ..., size - 1`. -/
def ThreadPool.new (size : Nat) : Option ThreadPool :=
  if size > 0 then
    some { workers := (List.range size).map Worker.new,
           sender := { queue := [], receiverAlive := true } }
  else
    none

/-- ThreadPool::execute (lib.rs lines 42-51): box the closure as a
`NewJob` message and send it, unwrapping (panicking on) a send error. -/
def ThreadPool.execute (p : ThreadPool) (job : JobId) : Except Unit ThreadPool :=
  match p.sender.send (Message.NewJob job) with
  | Except.ok c => Except.ok { p with sender := c }
  | Except.error e => Except.error e

/-- Events observable during ThreadPool::drop, in program order. -/
inductive PoolEvent where
  | sendMsg : Message → PoolEvent
  | joinWorker : Nat → PoolEvent
deriving DecidableEq, Repr

/-- First drop loop (lib.rs lines 58-60): one `send(Terminate).unwrap()`
per worker, iterating over the workers. -/
def sendPass (c : Channel) : List Worker → Except Unit (Channel × List PoolEvent)
  | [] => Except.ok (c, [])
  | _ :: rest =>
    match c.send Message.Terminate with
    | Except.ok c' =>
      match sendPass c' rest with
      | Except.ok (c'', evs) =>
          Except.ok (c'', PoolEvent.sendMsg Message.Terminate :: evs)
      | Except.error e => Except.error e
    | Except.error e => Except.error e

/-- Second drop loop (lib.rs lines 64-70): for each worker, `take()` the
optional handle; an already-empty slot is skipped; otherwise
`join().unwrap()`, propagating a join failure as a panic. -/
def joinPass : List Worker → Except Unit (List PoolEvent × List Worker)
  | [] => Except.ok ([], [])
  | w :: rest =>
    match w.thread with
    | some h =>
      match h.join with
      | Except.ok _ =>
        match joinPass rest with
        | Except.ok (evs, ws) =>
            Except.ok (PoolEvent.joinWorker w.id :: evs,
                       { w with thread := none } :: ws)
        | Except.error e => Except.error e
      | Except.error e => Except.error e
    | none =>
      match joinPass rest with
      | Except.ok (evs, ws) => Except.ok (evs, w :: ws)
      | Except.error e => Except.error e

/-- ThreadPool::drop (lib.rs lines 54-72): first send one Terminate per
worker, and only after all the sends join the workers one by one. -/
def ThreadPool.drop (p : ThreadPool) : Except Unit (List PoolEvent × ThreadPool) :=
  match sendPass p.sender p.workers with
  | Except.ok (c', sendEvs) =>
    match joinPass p.workers with
    | Except.ok (joinEvs, ws) =>
        Except.ok (sendEvs ++ joinEvs, { workers := ws, sender := c' })
    | Except.error e => Except.error e
  | Except.error e => Except.error e

/-- What a worker loop iteration can end in, together with the jobs it ran:
a clean `break` on Terminate (leaving the rest of the stream untouched),
blocking forever on an empty queue with a live sender, or a panic from an
`unwrap` in `receiver.lock().unwrap().recv().unwrap()`. -/
inductive LoopOutcome where
  | cleanExit : List JobId → List Message → LoopOutcome
  | blocked : List JobId → LoopOutcome
  | panicked : List JobId → LoopOutcome
deriving DecidableEq, Repr

/-- Record that a job ran before the rest of the loop played out. -/
def LoopOutcome.afterJob (j : JobId) : LoopOutcome → LoopOutcome
  | LoopOutcome.cleanExit ran rest => LoopOutcome.cleanExit (j :: ran) rest
  | LoopOutcome.blocked ran => LoopOutcome.blocked (j :: ran)
  | LoopOutcome.panicked ran => LoopOutcome.panicked (j :: ran)

/-- The worker loop (lib.rs lines 84-97) run over the stream of messages
this worker will dequeue.  Each iteration first locks the mutex — a
poisoned mutex makes `lock().unwrap()` panic — then receives: an empty
queue whose sender is gone makes `recv().unwrap()` panic, an empty queue
with a live sender blocks; a `NewJob` runs the job and loops; a
`Terminate` breaks out of the loop, never touching the remaining stream. -/
def workerRun (poisoned : Bool) (senderAlive : Bool) : List Message → LoopOutcome
  | [] =>
    if poisoned then LoopOutcome.panicked []
    else if senderAlive then LoopOutcome.blocked []
    else LoopOutcome.panicked []
  | Message.NewJob j :: rest =>
    if poisoned then LoopOutcome.panicked []
    else (workerRun poisoned senderAlive rest).afterJob j
  | Message.Terminate :: rest =>
    if poisoned then LoopOutcome.panicked []
    else LoopOutcome.cleanExit [] rest

/-- True on a job message, false on Terminate. -/
def isNewJob : Message → Bool
  | Message.NewJob _ => true
  | Message.Terminate => false

/-- The job carried by a message, if any. -/
def jobOf : Message → Option JobId
  | Message.NewJob j => some j
  | Message.Terminate => none

/-- What one worker thread is doing at an instant of the interleaved
execution: blocked on the shared receiver, running a dequeued job (the lock
is released before the job runs), or exited after consuming a Terminate. -/
inductive WStatus where
  | waiting : WStatus
  | running : JobId → WStatus
  | terminated : WStatus
deriving DecidableEq, Repr

/-- Global state of the interleaved system: the channel contents, the status
of each worker thread, and the log of completed job executions. -/
structure SysState where
  queue : List Message
  workers : List WStatus
  executed : List JobId
deriving DecidableEq, Repr

/-- The state after the owner has submitted `jobs` via execute and then
released the pool: the FIFO channel holds the job messages followed by one
Terminate per worker, all `n` workers are blocked on the receiver, and
nothing has run yet. -/
def initState (n : Nat) (jobs : List JobId) : SysState :=
  { queue := jobs.map Message.NewJob ++ List.replicate n Message.Terminate,
    workers := List.replicate n WStatus.waiting,
    executed := [] }

/-- One interleaving step of the system.  A waiting worker may atomically
(it holds the mutex for the duration of the dequeue) pop the head message:
a NewJob moves it to running that job, a Terminate makes its loop break.  A
running worker may finish its job, appending the job to the execution log
and returning to wait on the receiver. -/
inductive Step : SysState → SysState → Prop where
  | dequeueJob (s : SysState) (i : Nat) (j : JobId) (rest : List Message)
      (hq : s.queue = Message.NewJob j :: rest)
      (hw : s.workers[i]? = some WStatus.waiting) :
      Step s { queue := rest,
               workers := s.workers.set i (WStatus.running j),
               executed := s.executed }
  | dequeueTerminate (s : SysState) (i : Nat) (rest : List Message)
      (hq : s.queue = Message.Terminate :: rest)
      (hw : s.workers[i]? = some WStatus.waiting) :
      Step s { queue := rest,
               workers := s.workers.set i WStatus.terminated,
               executed := s.executed }
  | finishJob (s : SysState) (i : Nat) (j : JobId)
      (hw : s.workers[i]? = some (WStatus.running j)) :
      Step s { queue := s.queue,
               workers := s.workers.set i WStatus.waiting,
               executed := j :: s.executed }

/-- Reachability: any finite interleaving of steps. -/
def Reachable (s t : SysState) : Prop := Relation.ReflTransGen Step s t

/-- A final state: no thread can take any further step. -/
def IsFinal (s : SysState) : Prop := ∀ t, ¬ Step s t

/-- True exactly on a terminated worker. -/
def isTerminated : WStatus → Bool
  | WStatus.terminated => true
  | _ => false

/-- True exactly on a worker currently running job `j`. -/
def isRunningJob (j : JobId) : WStatus → Bool
  | WStatus.running k => decide (k = j)
  | _ => false

/-- Number of terminated workers. -/
def countTerminated (ws : List WStatus) : Nat := ws.countP isTerminated

/-- Number of workers currently running job `j`. -/
def countRunning (ws : List WStatus) (j : JobId) : Nat := ws.countP (isRunningJob j)

/-- The jobs still sitting in the channel, in order. -/
def queuedJobs (q : List Message) : List JobId := q.filterMap jobOf

/-- The inductive invariant of the shutdown run: the channel always holds a
residual suffix of the submitted jobs followed by the not-yet-consumed
Terminate messages (with one Terminate accounted for per terminated
worker), and every submitted job is in exactly one place — still queued,
being run, or in the execution log. -/
structure PoolInv (n : Nat) (jobs : List JobId) (s : SysState) : Prop where
  wlen : s.workers.length = n
  shape : ∃ pre rem k, jobs = pre ++ rem ∧ k ≤ n ∧
      s.queue = rem.map Message.NewJob ++ List.replicate k Message.Terminate ∧
      k + countTerminated s.workers = n ∧
      (rem ≠ [] → k = n)
  counts : ∀ j, (queuedJobs s.queue).count j + countRunning s.workers j
      + s.executed.count j = jobs.count j

/-! ## List helper lemmas -/

theorem countP_set_get {α : Type} (p : α → Bool) :
    ∀ (l : List α) (i : Nat) (a b : α), l[i]? = some b →
      (l.set i a).countP p + (if p b then 1 else 0)
        = l.countP p + (if p a then 1 else 0)
  | [], i, a, b, h => by simp at h
  | x :: xs, 0, a, b, h => by
    simp only [List.getElem?_cons_zero, Option.some_inj] at h
    subst h
    simp only [List.set]
    simp only [List.countP_cons]
    omega
  | x :: xs, i + 1, a, b, h => by
    simp only [List.getElem?_cons_succ] at h
    have ih := countP_set_get p xs i a b h
    simp only [List.set]
    simp only [List.countP_cons]
    omega

theorem countP_replicate_false {α : Type} (p : α → Bool) (w : α) (h : p w = false) :
    ∀ n, (List.replicate n w).countP p = 0
  | 0 => rfl
  | n + 1 => by
    rw [List.replicate_succ, List.countP_cons, countP_replicate_false p w h n]
    simp [h]

theorem exists_getElem?_of_mem {α : Type} {a : α} {l : List α} (h : a ∈ l) :
    ∃ i : Nat, l[i]? = some a := by
  obtain ⟨i, hi, rfl⟩ := List.getElem_of_mem h
  exact ⟨i, List.getElem?_eq_getElem hi⟩

theorem queuedJobs_append (a b : List Message) :
    queuedJobs (a ++ b) = queuedJobs a ++ queuedJobs b :=
  List.filterMap_append a b jobOf

theorem queuedJobs_map_newJob (jobs : List JobId) :
    queuedJobs (jobs.map Message.NewJob) = jobs := by
  induction jobs with
  | nil => rfl
  | cons j tl ih => simp [queuedJobs, jobOf] at ih ⊢; exact ih

theorem queuedJobs_replicate_terminate :
    ∀ k, queuedJobs (List.replicate k Message.Terminate) = []
  | 0 => rfl
  | k + 1 => by
    have ih := queuedJobs_replicate_terminate k
    rw [List.replicate_succ]
    simp only [queuedJobs, List.filterMap_cons, jobOf] at ih ⊢
    exact ih

/-! ## Invariant: established at the initial state, preserved by every step -/

theorem poolInv_init (n : Nat) (jobs : List JobId) : PoolInv n jobs (initState n jobs) := by
  refine ⟨by simp [initState], ⟨[], jobs, n, rfl, le_refl n, rfl, ?_, fun _ => rfl⟩, ?_⟩
  · have h0 : countTerminated (List.replicate n WStatus.waiting) = 0 :=
      countP_replicate_false isTerminated WStatus.waiting rfl n
    simp [initState, h0]
  · intro j
    have hq : queuedJobs ((initState n jobs).queue) = jobs := by
      simp only [initState]
      rw [queuedJobs_append, queuedJobs_map_newJob, queuedJobs_replicate_terminate]
      simp
    have hr : countRunning ((initState n jobs).workers) j = 0 :=
      countP_replicate_false (isRunningJob j) WStatus.waiting rfl n
    rw [hq, hr]
    simp [initState]

theorem poolInv_step {n : Nat} {jobs : List JobId} {s t : SysState}
    (hst : Step s t) (hs : PoolInv n jobs s) : PoolInv n jobs t := by
  obtain ⟨hw, ⟨pre, rem, k, hjobs, hk, hqueue, hterm, hrem⟩, hcounts⟩ := hs
  cases hst with
  | dequeueJob i j rest hq hw0 =>
    rw [hq] at hqueue
    cases rem with
    | nil =>
      cases k with
      | zero => simp at hqueue
      | succ k0 => rw [List.replicate_succ] at hqueue; simp at hqueue
    | cons r rem' =>
      simp only [List.map_cons, List.cons_append, List.cons.injEq,
        Message.NewJob.injEq] at hqueue
      obtain ⟨hrj, hrest⟩ := hqueue
      subst hrj
      have htermEq := countP_set_get isTerminated s.workers i
        (WStatus.running j) WStatus.waiting hw0
      simp only [isTerminated] at htermEq
      refine ⟨by simp [hw], ⟨pre ++ [j], rem', k, ?_, hk, ?_, ?_, ?_⟩, ?_⟩
      · rw [hjobs, List.append_assoc]; rfl
      · exact hrest
      · simp only [countTerminated] at hterm ⊢; omega
      · intro _; exact hrem (by simp)
      · intro j'
        have hcj := hcounts j'
        rw [hq] at hcj
        have hrunEq := countP_set_get (isRunningJob j') s.workers i
          (WStatus.running j) WStatus.waiting hw0
        simp only [countRunning, countTerminated] at hcj hrunEq ⊢
        simp only [queuedJobs, List.filterMap_cons, jobOf] at hcj ⊢
        by_cases hjj : j = j'
        · subst hjj
          simp [isRunningJob] at hrunEq
          rw [List.count_cons_self] at hcj
          omega
        · simp [isRunningJob, hjj] at hrunEq
          rw [List.count_cons_of_ne (fun hcc => hjj hcc.symm)] at hcj
          omega
  | dequeueTerminate i rest hq hw0 =>
    rw [hq] at hqueue
    cases rem with
    | cons r rem' => simp at hqueue
    | nil =>
      cases k with
      | zero => simp at hqueue
      | succ k0 =>
        rw [List.replicate_succ] at hqueue
        simp only [List.map_nil, List.nil_append, List.cons.injEq] at hqueue
        obtain ⟨-, hrest⟩ := hqueue
        have htermEq := countP_set_get isTerminated s.workers i
          WStatus.terminated WStatus.waiting hw0
        simp [isTerminated] at htermEq
        refine ⟨by simp [hw], ⟨pre, [], k0, hjobs, by omega, by simp [hrest], ?_, ?_⟩, ?_⟩
        · simp only [countTerminated] at hterm ⊢; omega
        · intro hcon; exact absurd rfl hcon
        · intro j'
          have hcj := hcounts j'
          rw [hq] at hcj
          have hrunEq := countP_set_get (isRunningJob j') s.workers i
            WStatus.terminated WStatus.waiting hw0
          simp [isRunningJob] at hrunEq
          simp only [countRunning, countTerminated] at hcj hrunEq ⊢
          simp only [queuedJobs, List.filterMap_cons, jobOf] at hcj ⊢
          omega
  | finishJob i j hw0 =>
    have htermEq := countP_set_get isTerminated s.workers i
      WStatus.waiting (WStatus.running j) hw0
    simp only [isTerminated, if_false] at htermEq
    refine ⟨by simp [hw], ⟨pre, rem, k, hjobs, hk, hqueue, ?_, hrem⟩, ?_⟩
    · simp only [countTerminated] at hterm ⊢; omega
    · intro j'
      have hcj := hcounts j'
      have hrunEq := countP_set_get (isRunningJob j') s.workers i
        WStatus.waiting (WStatus.running j) hw0
      simp only [countRunning, countTerminated] at hcj hrunEq ⊢
      by_cases hjj : j = j'
      · subst hjj
        simp [isRunningJob] at hrunEq
        rw [List.count_cons_self]
        omega
      · simp [isRunningJob, hjj] at hrunEq
        rw [List.count_cons_of_ne (fun hcc => hjj hcc.symm)]
        omega

theorem poolInv_reachable {n : Nat} {jobs : List JobId} {s : SysState}
    (h : Reachable (initState n jobs) s) : PoolInv n jobs s := by
  induction h with
  | refl => exact poolInv_init n jobs
  | tail hab hbc ih => exact poolInv_step hbc ih

theorem final_state_characterization {n : Nat} {jobs : List JobId} {s : SysState}
    (hn : 0 < n) (hinv : PoolInv n jobs s) (hf : IsFinal s) :
    s.queue = [] ∧ (∀ w ∈ s.workers, w = WStatus.terminated)
      ∧ ∀ j, s.executed.count j = jobs.count j := by
  obtain ⟨hw, ⟨pre, rem, k, hjobs, hk, hqueue, hterm, hrem⟩, hcounts⟩ := hinv
  have hnorun : ∀ (i : Nat) (j : JobId), ¬ s.workers[i]? = some (WStatus.running j) := by
    intro i j hcon
    exact hf _ (Step.finishJob s i j hcon)
  have hqempty : s.queue = [] := by
    by_contra hne
    obtain ⟨m, rest, hq⟩ : ∃ m rest, s.queue = m :: rest := by
      cases hqe : s.queue with
      | nil => exact absurd hqe hne
      | cons a b => exact ⟨a, b, rfl⟩
    have hnowait : ∀ i : Nat, ¬ s.workers[i]? = some WStatus.waiting := by
      intro i hcon
      cases m with
      | NewJob j => exact hf _ (Step.dequeueJob s i j rest hq hcon)
      | Terminate => exact hf _ (Step.dequeueTerminate s i rest hq hcon)
    have hallterm : ∀ w ∈ s.workers, isTerminated w = true := by
      intro w hwmem
      obtain ⟨i, hi⟩ := exists_getElem?_of_mem hwmem
      cases w with
      | waiting => exact absurd hi (hnowait i)
      | running j => exact absurd hi (hnorun i j)
      | terminated => rfl
    have hcnt : countTerminated s.workers = n := by
      rw [countTerminated, List.countP_eq_length.mpr hallterm, hw]
    have hk0 : k = 0 := by omega
    subst hk0
    rw [hq] at hqueue
    cases rem with
    | nil => simp at hqueue
    | cons r rem' =>
      have hkn : (0 : Nat) = n := hrem (by simp)
      omega
  rw [hqempty] at hqueue
  have hrem0 : rem = [] := by
    cases rem with
    | nil => rfl
    | cons r rem' => simp at hqueue
  subst hrem0
  have hk0 : k = 0 := by
    cases k with
    | zero => rfl
    | succ k0 => rw [List.replicate_succ] at hqueue; simp at hqueue
  subst hk0
  have hcnt : countTerminated s.workers = n := by omega
  have hall : ∀ w ∈ s.workers, isTerminated w = true := by
    rw [countTerminated, ← hw] at hcnt
    exact List.countP_eq_length.mp hcnt
  refine ⟨hqempty, ?_, ?_⟩
  · intro w hwmem
    have hwt := hall w hwmem
    cases w <;> simp [isTerminated] at hwt ⊢
  · intro j
    have h0 : countRunning s.workers j = 0 := by
      rw [countRunning, List.countP_eq_zero]
      intro w hwmem
      have hwt := hall w hwmem
      cases w <;> simp [isTerminated, isRunningJob] at hwt ⊢
    have hcj := hcounts j
    rw [hqempty] at hcj
    simp only [queuedJobs, List.filterMap_nil, List.count_nil] at hcj
    omega

/-- C1: for every sequence of jobs submitted via execute to a pool of
`n > 0` workers that is then released, any completed interleaved run (a
reachable state from which no thread can take a step) has executed exactly
the submitted multiset of jobs — no job is lost and none runs twice — and
every worker has terminated. -/
theorem jobs_run_exactly_once (n : Nat) (jobs : List JobId) (s : SysState)
    (hn : 0 < n) (hr : Reachable (initState n jobs) s) (hf : IsFinal s) :
    List.Perm s.executed jobs ∧ ∀ w ∈ s.workers, w = WStatus.terminated := by
  have hinv := poolInv_reachable hr
  obtain ⟨hq, hterm, hcnt⟩ := final_state_characterization hn hinv hf
  exact ⟨List.perm_iff_count.mpr hcnt, hterm⟩

/-- Witness for C1: the concrete run of one worker on the single job 7 —
dequeue the job, finish it, dequeue Terminate — reaches a final state whose
log is exactly one execution of job 7. -/
theorem jobs_run_exactly_once_witness :
    List.Perm (SysState.mk [] [WStatus.terminated] [7]).executed [7]
      ∧ ∀ w ∈ (SysState.mk [] [WStatus.terminated] [7]).workers,
          w = WStatus.terminated := by
  have h01 : Step (initState 1 [7])
      (SysState.mk [Message.Terminate] [WStatus.running 7] []) :=
    Step.dequeueJob (initState 1 [7]) 0 7 [Message.Terminate] rfl rfl
  have h12 : Step (SysState.mk [Message.Terminate] [WStatus.running 7] [])
      (SysState.mk [Message.Terminate] [WStatus.waiting] [7]) :=
    Step.finishJob (SysState.mk [Message.Terminate] [WStatus.running 7] []) 0 7 rfl
  have h23 : Step (SysState.mk [Message.Terminate] [WStatus.waiting] [7])
      (SysState.mk [] [WStatus.terminated] [7]) :=
    Step.dequeueTerminate (SysState.mk [Message.Terminate] [WStatus.waiting] [7]) 0 [] rfl rfl
  have hreach : Reachable (initState 1 [7]) (SysState.mk [] [WStatus.terminated] [7]) :=
    Relation.ReflTransGen.head h01 (Relation.ReflTransGen.head h12
      (Relation.ReflTransGen.head h23 Relation.ReflTransGen.refl))
  have hfin : IsFinal (SysState.mk [] [WStatus.terminated] [7]) := by
    intro t ht
    cases ht with
    | dequeueJob i j rest hq hw0 => exact absurd hq (by simp)
    | dequeueTerminate i rest hq hw0 => exact absurd hq (by simp)
    | finishJob i j hw0 =>
      match i, hw0 with
      | 0, hw0 => simp at hw0
      | i + 1, hw0 => simp at hw0
  exact jobs_run_exactly_once 1 [7] (SysState.mk [] [WStatus.terminated] [7])
    (by decide) hreach hfin

/-! ## Behaviour of the two drop passes -/

theorem sendPass_ok : ∀ (ws : List Worker) (c : Channel), c.receiverAlive = true →
    sendPass c ws = Except.ok
      (Channel.mk (c.queue ++ List.replicate ws.length Message.Terminate) true,
       List.replicate ws.length (PoolEvent.sendMsg Message.Terminate))
  | [], c, halive => by
    obtain ⟨q, al⟩ := c
    subst halive
    simp [sendPass]
  | w :: rest, c, halive => by
    have ih := sendPass_ok rest (Channel.mk (c.queue ++ [Message.Terminate]) true) rfl
    simp only [sendPass, Channel.send, halive, if_true, ih]
    simp [List.replicate_succ, List.append_assoc]

theorem joinPass_ok : ∀ ws : List Worker,
    (∀ w ∈ ws, w.thread = some (JoinHandle.mk false)) →
    joinPass ws = Except.ok
      (ws.map (fun w => PoolEvent.joinWorker w.id),
       ws.map (fun w => { w with thread := none }))
  | [], _ => rfl
  | w :: rest, h => by
    have hw := h w (by simp)
    have ih := joinPass_ok rest (fun w' hmem => h w' (by simp [hmem]))
    simp [joinPass, hw, JoinHandle.join, ih]

theorem joinPass_result : ∀ (ws : List Worker) (evs : List PoolEvent) (ws' : List Worker),
    joinPass ws = Except.ok (evs, ws') →
    ws'.length = ws.length ∧ ∀ w ∈ ws', w.thread = none
  | [], evs, ws', h => by
    simp [joinPass] at h
    obtain ⟨h1, h2⟩ := h
    subst h1
    subst h2
    simp
  | w :: rest, evs, ws', h => by
    cases hthr : w.thread with
    | some hd =>
      cases hpan : hd.panicked with
      | true => simp [joinPass, hthr, JoinHandle.join, hpan] at h
      | false =>
        cases hrest : joinPass rest with
        | error e => simp [joinPass, hthr, JoinHandle.join, hpan, hrest] at h
        | ok pr =>
          have ih := joinPass_result rest pr.1 pr.2 (by rw [hrest])
          simp [joinPass, hthr, JoinHandle.join, hpan, hrest] at h
          obtain ⟨he, hws⟩ := h
          subst he
          subst hws
          refine ⟨by simp [ih.1], ?_⟩
          intro w' hmem
          rcases List.mem_cons.mp hmem with heq | hmem'
          · subst heq; rfl
          · exact ih.2 w' hmem'
    | none =>
      cases hrest : joinPass rest with
      | error e => simp [joinPass, hthr, hrest] at h
      | ok pr =>
        have ih := joinPass_result rest pr.1 pr.2 (by rw [hrest])
        simp [joinPass, hthr, hrest] at h
        obtain ⟨he, hws⟩ := h
        subst he
        subst hws
        refine ⟨by simp [ih.1], ?_⟩
        intro w' hmem
        rcases List.mem_cons.mp hmem with heq | hmem'
        · subst heq; exact hthr
        · exact ih.2 w' hmem'

theorem joinPass_error_of_panicked : ∀ ws : List Worker,
    (∃ w ∈ ws, ∃ hd : JoinHandle, w.thread = some hd ∧ hd.panicked = true) →
    joinPass ws = Except.error ()
  | [], hex => by simp at hex
  | w :: rest, hex => by
    obtain ⟨w', hmem, hdl, hthr, hpan⟩ := hex
    rcases List.mem_cons.mp hmem with heq | hmem'
    · subst heq
      simp [joinPass, hthr, JoinHandle.join, hpan]
    · cases hthr0 : w.thread with
      | none =>
        simp [joinPass, hthr0,
          joinPass_error_of_panicked rest ⟨w', hmem', hdl, hthr, hpan⟩]
      | some h0 =>
        cases hp0 : h0.panicked with
        | true => simp [joinPass, hthr0, JoinHandle.join, hp0]
        | false =>
          simp [joinPass, hthr0, JoinHandle.join, hp0,
            joinPass_error_of_panicked rest ⟨w', hmem', hdl, hthr, hpan⟩]

/-! ## Claim theorems on construction, submission and shutdown -/

/-- C2: releasing a pool of N workers first pushes exactly one Terminate
message per worker onto the shared queue — N sends, all of them before any
join — and only then, in a second pass, takes each worker's thread handle
(emptying its slot) and joins that thread. -/
theorem shutdown_sends_then_joins (p : ThreadPool)
    (halive : p.sender.receiverAlive = true)
    (hthreads : ∀ w ∈ p.workers, w.thread = some (JoinHandle.mk false)) :
    ThreadPool.drop p = Except.ok
      (List.replicate p.workers.length (PoolEvent.sendMsg Message.Terminate)
         ++ p.workers.map (fun w => PoolEvent.joinWorker w.id),
       { workers := p.workers.map (fun w => { w with thread := none }),
         sender := Channel.mk
           (p.sender.queue ++ List.replicate p.workers.length Message.Terminate)
           true }) := by
  have hs := sendPass_ok p.workers p.sender halive
  have hj := joinPass_ok p.workers hthreads
  simp [ThreadPool.drop, hs, hj]

/-- Witness for C2 on a concrete two-worker pool. -/
theorem shutdown_sends_then_joins_witness :
    ThreadPool.drop (ThreadPool.mk [Worker.new 0, Worker.new 1] (Channel.mk [] true))
      = Except.ok
        ([PoolEvent.sendMsg Message.Terminate, PoolEvent.sendMsg Message.Terminate,
          PoolEvent.joinWorker 0, PoolEvent.joinWorker 1],
         ThreadPool.mk [Worker.mk 0 none, Worker.mk 1 none]
           (Channel.mk [Message.Terminate, Message.Terminate] true)) :=
  shutdown_sends_then_joins
    (ThreadPool.mk [Worker.new 0, Worker.new 1] (Channel.mk [] true))
    rfl (by decide)

/-- C3: constructing a pool with size 0 trips the assertion — no pool is
produced, and since the assertion precedes every spawn, no worker thread
ever exists — while every positive size yields an assembled pool. -/
theorem new_zero_fails_positive_succeeds (size : Nat) :
    ThreadPool.new 0 = none ∧ (0 < size → ∃ p, ThreadPool.new size = some p) := by
  constructor
  · rfl
  · intro h
    refine ⟨ThreadPool.mk ((List.range size).map Worker.new) (Channel.mk [] true), ?_⟩
    unfold ThreadPool.new
    rw [if_pos h]

/-- Witness for C3 at sizes 0 and 3. -/
theorem new_zero_fails_positive_succeeds_witness :
    ThreadPool.new 0 = none ∧ ∃ p, ThreadPool.new 3 = some p :=
  ⟨(new_zero_fails_positive_succeeds 3).1,
   (new_zero_fails_positive_succeeds 3).2 (by decide)⟩

/-- C4: execute packages the job as exactly one NewJob message appended to
the queue — the call itself runs nothing — and its unwrap of the send
result panics exactly when no receiving end is alive. -/
theorem execute_sends_single_newjob (p : ThreadPool) (job : JobId) :
    (p.sender.receiverAlive = true →
        p.execute job = Except.ok
          { p with sender := Channel.mk (p.sender.queue ++ [Message.NewJob job]) true })
    ∧ (p.sender.receiverAlive = false → p.execute job = Except.error ()) := by
  obtain ⟨ws, q, al⟩ := p
  constructor
  · intro h
    subst h
    simp [ThreadPool.execute, Channel.send]
  · intro h
    subst h
    simp [ThreadPool.execute, Channel.send]

/-- Witness for C4: a live channel accepts the job, a dead one panics. -/
theorem execute_sends_single_newjob_witness :
    ThreadPool.execute (ThreadPool.mk [] (Channel.mk [] true)) 5
        = Except.ok (ThreadPool.mk [] (Channel.mk [Message.NewJob 5] true))
      ∧ ThreadPool.execute (ThreadPool.mk [] (Channel.mk [] false)) 5
        = Except.error () :=
  ⟨(execute_sends_single_newjob (ThreadPool.mk [] (Channel.mk [] true)) 5).1 rfl,
   (execute_sends_single_newjob (ThreadPool.mk [] (Channel.mk [] false)) 5).2 rfl⟩

/-- C6: new(size) spawns exactly size workers, and neither execute nor
shutdown adds or removes an element of the workers collection. -/
theorem worker_count_invariant :
    (∀ (size : Nat) (p : ThreadPool), ThreadPool.new size = some p →
        p.workers.length = size)
    ∧ (∀ (p : ThreadPool) (job : JobId) (p' : ThreadPool),
        p.execute job = Except.ok p' → p'.workers = p.workers)
    ∧ (∀ (p : ThreadPool) (tr : List PoolEvent) (p' : ThreadPool),
        ThreadPool.drop p = Except.ok (tr, p') →
        p'.workers.length = p.workers.length) := by
  refine ⟨?_, ?_, ?_⟩
  · intro size p h
    unfold ThreadPool.new at h
    split at h
    · obtain rfl := Option.some_inj.mp h
      simp
    · exact absurd h (by simp)
  · intro p job p' h
    unfold ThreadPool.execute at h
    cases hs : p.sender.send (Message.NewJob job) with
    | ok c => rw [hs] at h; obtain rfl := Except.ok.inj h; rfl
    | error e => rw [hs] at h; exact absurd h (by simp)
  · intro p tr p' h
    unfold ThreadPool.drop at h
    cases hs : sendPass p.sender p.workers with
    | error e => rw [hs] at h; exact absurd h (by simp)
    | ok pr =>
      obtain ⟨c1, evs1⟩ := pr
      rw [hs] at h
      cases hj : joinPass p.workers with
      | error e => rw [hj] at h; exact absurd h (by simp)
      | ok pj =>
        obtain ⟨evs2, ws2⟩ := pj
        rw [hj] at h
        simp only [Except.ok.injEq, Prod.mk.injEq] at h
        obtain ⟨rfl, rfl⟩ := h
        exact (joinPass_result p.workers evs2 ws2 hj).1

/-- Witness for C6: the three conjuncts at concrete pools. -/
theorem worker_count_invariant_witness :
    (ThreadPool.mk [Worker.new 0, Worker.new 1] (Channel.mk [] true)).workers.length = 2
    ∧ (ThreadPool.mk [Worker.new 0] (Channel.mk [Message.NewJob 4] true)).workers
        = (ThreadPool.mk [Worker.new 0] (Channel.mk [] true)).workers
    ∧ (ThreadPool.mk [Worker.mk 0 none] (Channel.mk [Message.Terminate] true)).workers.length
        = (ThreadPool.mk [Worker.new 0] (Channel.mk [] true)).workers.length :=
  ⟨worker_count_invariant.1 2
      (ThreadPool.mk [Worker.new 0, Worker.new 1] (Channel.mk [] true)) (by decide),
   worker_count_invariant.2.1
      (ThreadPool.mk [Worker.new 0] (Channel.mk [] true)) 4
      (ThreadPool.mk [Worker.new 0] (Channel.mk [Message.NewJob 4] true)) rfl,
   worker_count_invariant.2.2
      (ThreadPool.mk [Worker.new 0] (Channel.mk [] true))
      [PoolEvent.sendMsg Message.Terminate, PoolEvent.joinWorker 0]
      (ThreadPool.mk [Worker.mk 0 none] (Channel.mk [Message.Terminate] true)) rfl⟩

/-- C7: a freshly constructed worker's optional slot is occupied; after a
successful shutdown every worker's slot is empty; and a worker whose slot
is already empty is skipped by the join pass — no event, no failure — so
the take cannot fail. -/
theorem handle_taken_once :
    (∀ i : Nat, (Worker.new i).thread.isSome = true)
    ∧ (∀ (p : ThreadPool) (tr : List PoolEvent) (p' : ThreadPool),
        ThreadPool.drop p = Except.ok (tr, p') → ∀ w ∈ p'.workers, w.thread = none)
    ∧ (∀ (w : Worker) (ws : List Worker), w.thread = none →
        joinPass (w :: ws) = Except.map (fun r => (r.1, w :: r.2)) (joinPass ws)) := by
  refine ⟨fun i => rfl, ?_, ?_⟩
  · intro p tr p' h
    unfold ThreadPool.drop at h
    cases hs : sendPass p.sender p.workers with
    | error e => rw [hs] at h; exact absurd h (by simp)
    | ok pr =>
      obtain ⟨c1, evs1⟩ := pr
      rw [hs] at h
      cases hj : joinPass p.workers with
      | error e => rw [hj] at h; exact absurd h (by simp)
      | ok pj =>
        obtain ⟨evs2, ws2⟩ := pj
        rw [hj] at h
        simp only [Except.ok.injEq, Prod.mk.injEq] at h
        obtain ⟨rfl, rfl⟩ := h
        exact (joinPass_result p.workers evs2 ws2 hj).2
  · intro w ws h
    cases hrest : joinPass ws with
    | error e => simp [joinPass, h, hrest, Except.map]
    | ok pr => simp [joinPass, h, hrest, Except.map]

/-- Witness for C7: a fresh worker holds a handle; after dropping a
one-worker pool that worker's slot is empty; an empty-slot worker is
passed over by the join pass. -/
theorem handle_taken_once_witness :
    (Worker.new 5).thread.isSome = true
    ∧ (Worker.mk 0 none).thread = none
    ∧ joinPass [Worker.mk 3 none]
        = Except.map (fun r => (r.1, Worker.mk 3 none :: r.2)) (joinPass []) :=
  ⟨handle_taken_once.1 5,
   handle_taken_once.2.1
      (ThreadPool.mk [Worker.new 0] (Channel.mk [] true))
      [PoolEvent.sendMsg Message.Terminate, PoolEvent.joinWorker 0]
      (ThreadPool.mk [Worker.mk 0 none] (Channel.mk [Message.Terminate] true)) rfl
      (Worker.mk 0 none) (by simp),
   handle_taken_once.2.2 (Worker.mk 3 none) [] rfl⟩

/-- C8: when any worker's thread cannot be joined (its thread panicked, so
join returns Err), the unwrap in drop propagates the failure as a fatal
panic out of teardown instead of swallowing it. -/
theorem join_failure_propagates (p : ThreadPool)
    (halive : p.sender.receiverAlive = true)
    (hpanic : ∃ w ∈ p.workers, ∃ hd : JoinHandle,
        w.thread = some hd ∧ hd.panicked = true) :
    ThreadPool.drop p = Except.error () := by
  have hs := sendPass_ok p.workers p.sender halive
  have hj := joinPass_error_of_panicked p.workers hpanic
  simp [ThreadPool.drop, hs, hj]

/-- Witness for C8: dropping a pool whose only worker panicked fails. -/
theorem join_failure_propagates_witness :
    ThreadPool.drop
      (ThreadPool.mk [Worker.mk 0 (some (JoinHandle.mk true))] (Channel.mk [] true))
      = Except.error () :=
  join_failure_propagates
    (ThreadPool.mk [Worker.mk 0 (some (JoinHandle.mk true))] (Channel.mk [] true))
    rfl ⟨Worker.mk 0 (some (JoinHandle.mk true)), by simp, JoinHandle.mk true, rfl, rfl⟩

/-- C5: the worker loop exits cleanly with log `ran` and residual stream
`rest` exactly when the dequeued stream is a run of NewJob messages — every
one of which is invoked, in order, with the loop then returning to wait —
followed by a first Terminate, on which the loop breaks at once: nothing
after that Terminate is dequeued or run, so the terminated state is
absorbing. -/
theorem worker_loop_terminate_absorbing (alive : Bool) (ms : List Message)
    (ran : List JobId) (rest : List Message) :
    workerRun false alive ms = LoopOutcome.cleanExit ran rest ↔
      ∃ pre, ms = pre ++ Message.Terminate :: rest
        ∧ pre.all isNewJob = true ∧ ran = pre.filterMap jobOf := by
  constructor
  · intro h
    induction ms generalizing ran with
    | nil =>
      cases alive <;> simp [workerRun] at h
    | cons m tl ih =>
      cases m with
      | NewJob j =>
        simp only [workerRun, if_neg (by simp : ¬ false = true)] at h
        cases hres : workerRun false alive tl with
        | cleanExit ran0 rest0 =>
          rw [hres] at h
          simp only [LoopOutcome.afterJob, LoopOutcome.cleanExit.injEq] at h
          obtain ⟨hran, hrest⟩ := h
          subst hrest
          obtain ⟨pre0, hms, hall, hran0⟩ := ih ran0 hres
          refine ⟨Message.NewJob j :: pre0, by simp [hms], by simp [isNewJob, hall], ?_⟩
          simp [List.filterMap_cons, jobOf, ← hran0, ← hran]
        | blocked ran0 => rw [hres] at h; simp [LoopOutcome.afterJob] at h
        | panicked ran0 => rw [hres] at h; simp [LoopOutcome.afterJob] at h
      | Terminate =>
        simp only [workerRun, if_neg (by simp : ¬ false = true),
          LoopOutcome.cleanExit.injEq] at h
        obtain ⟨hran, hrest⟩ := h
        subst hrest
        exact ⟨[], rfl, rfl, by simp [hran]⟩
  · intro h
    obtain ⟨pre, hms, hall, hran⟩ := h
    subst hms
    subst hran
    induction pre with
    | nil => simp [workerRun]
    | cons m pre' ih =>
      cases m with
      | NewJob j =>
        simp only [List.all_cons, Bool.and_eq_true] at hall
        have ihh := ih hall.2
        simp only [List.cons_append, workerRun, if_neg (by simp : ¬ false = true), ihh]
        simp [ihh, LoopOutcome.afterJob, List.filterMap_cons, jobOf]
      | Terminate =>
        simp [isNewJob] at hall

/-- Witness for C5: one job then Terminate then a further message — the job
runs, the loop exits, and the trailing message is left untouched. -/
theorem worker_loop_terminate_absorbing_witness :
    workerRun false true [Message.NewJob 3, Message.Terminate, Message.NewJob 4]
      = LoopOutcome.cleanExit [3] [Message.NewJob 4] :=
  (worker_loop_terminate_absorbing true
      [Message.NewJob 3, Message.Terminate, Message.NewJob 4]
      [3] [Message.NewJob 4]).mpr
    ⟨[Message.NewJob 3], rfl, rfl, rfl⟩

/-- C9: the worker ids handed out by new(size) are exactly
0, 1, ..., size-1 in construction order — zero-based, consecutive, and
pairwise distinct. -/
theorem worker_ids_zero_based (size : Nat) (p : ThreadPool)
    (h : ThreadPool.new size = some p) :
    p.workers.map Worker.id = List.range size
      ∧ (p.workers.map Worker.id).Nodup := by
  unfold ThreadPool.new at h
  split at h
  · obtain rfl := Option.some_inj.mp h
    have hmap : ((List.range size).map Worker.new).map Worker.id = List.range size := by
      rw [List.map_map]
      have : (Worker.id ∘ Worker.new) = fun i => i := by
        funext i
        rfl
      rw [this]
      exact List.map_id (List.range size)
    exact ⟨hmap, by rw [hmap]; exact List.nodup_range size⟩
  · exact absurd h (by simp)

/-- Witness for C9 on a pool of two workers. -/
theorem worker_ids_zero_based_witness :
    ([Worker.new 0, Worker.new 1].map Worker.id = List.range 2)
      ∧ ([Worker.new 0, Worker.new 1].map Worker.id).Nodup :=
  worker_ids_zero_based 2
    (ThreadPool.mk [Worker.new 0, Worker.new 1] (Channel.mk [] true)) (by decide)

/-- C10: when a dequeue attempt fails — the mutex around the receiver is
poisoned, so lock().unwrap() panics, or the queue runs dry with the sending
end gone, so recv().unwrap() panics — the worker thread dies by panic,
which is never the clean loop exit taken on Terminate. -/
theorem dequeue_failure_panics (alive : Bool) (ms : List Message) :
    (workerRun true alive ms = LoopOutcome.panicked [])
    ∧ (ms.all isNewJob = true →
        workerRun false false ms = LoopOutcome.panicked (ms.filterMap jobOf))
    ∧ (∀ (ran2 ran : List JobId) (rest : List Message),
        LoopOutcome.panicked ran2 ≠ LoopOutcome.cleanExit ran rest) := by
  refine ⟨?_, ?_, ?_⟩
  · cases ms with
    | nil => simp [workerRun]
    | cons m tl => cases m <;> simp [workerRun]
  · intro hall
    induction ms with
    | nil => simp [workerRun]
    | cons m tl ih =>
      cases m with
      | NewJob j =>
        simp only [List.all_cons, Bool.and_eq_true] at hall
        simp only [workerRun, if_neg (by simp : ¬ false = true), ih hall.2]
        simp [LoopOutcome.afterJob, List.filterMap_cons, jobOf]
      | Terminate => simp [isNewJob] at hall
  · intro ran2 ran rest hcon
    exact LoopOutcome.noConfusion hcon

/-- Witness for C10: a poisoned lock panics immediately; a drained queue
with a dead sender panics after running the pending job. -/
theorem dequeue_failure_panics_witness :
    (workerRun true true [Message.NewJob 2] = LoopOutcome.panicked [])
    ∧ (workerRun false false [Message.NewJob 2] = LoopOutcome.panicked [2])
    ∧ (LoopOutcome.panicked ([] : List JobId)
        ≠ LoopOutcome.cleanExit ([] : List JobId) ([] : List Message)) :=
  ⟨(dequeue_failure_panics true [Message.NewJob 2]).1,
   (dequeue_failure_panics false [Message.NewJob 2]).2.1 rfl,
   (dequeue_failure_panics true []).2.2 [] [] []⟩

end ThreadPoolSpec
